import Mathlib

/-!
Verification development for the mango_chainsaw label-indexed blob store.

The five-tree namespace storage engine (trees `labels`, `labels_inverse`,
`data`, `data_labels`, `data_labels_inverse`) is embedded shallowly:

* sled trees become association lists with overwrite-on-insert semantics
  (`treeInsert` removes the old entry and conses the new one, matching
  `Tree::insert`; `treeRemove` matches `Tree::remove`);
* the FlexBuffers codec is abstracted to injective framing functions
  (`serBlob` prepends the length, standing for the self-describing binary
  encoding, which is deterministic, round-trips, and is never equal to the
  raw payload bytes);
* keys of `labels_inverse` carry their provenance in the inductive `LIKey`:
  `insert` writes raw label-text bytes (`LIKey.text`), while the delete path
  of `src/delete.rs` removes a FlexBuffers-serialized LabelID
  (`LIKey.serId`); the two byte encodings are distinct in the real store,
  which the two constructors reflect;
* Rust's `DefaultHasher` (used for `Label::id` and for
  `InsertRequest::new`'s content-derived ObjectID) is modelled by a concrete
  deterministic 64-bit string/byte hash `hashBytes`.

Request objects (`InsertRequest`, `DeleteRequest`, `QueryRequest`) keep
their one-shot `executed` flag; `execute` is state passing: it takes the
namespace state and returns the new state (and the updated request).
-/

abbrev ObjectID : Type := Nat

abbrev LabelID : Type := Nat

abbrev Blob : Type := List Nat

/-- Deterministic 64-bit hash of a byte sequence; stands for Rust's
`DefaultHasher` (the claims use only that it is deterministic). -/
def hashBytes (b : List Nat) : Nat :=
  b.foldl (fun h x => (h * 31 + x) % 18446744073709551616) 5381

def hashStr (s : String) : Nat :=
  hashBytes (s.data.map Char.toNat)

/-- A label as in `common.rs`: a single canonical text string. -/
structure Label where
  data : String
deriving DecidableEq, Repr

/-- `Label::id`: the 64-bit hash of the label contents. -/
def Label.id (l : Label) : LabelID :=
  hashStr l.data

/-- Keys of the `labels_inverse` tree, tagged by provenance: raw label-text
bytes (written by insert) versus FlexBuffers-serialized LabelID bytes (used
by the delete path of `src/delete.rs`). The two byte shapes never coincide
in the store. -/
inductive LIKey where
  | text (s : String)
  | serId (n : LabelID)
deriving DecidableEq, Repr

/-- FlexBuffers framing of a byte payload: self-describing, hence strictly
longer than, and never equal to, the raw bytes. Modelled as length-prefix
framing, keeping the properties the claims use (deterministic, injective,
not the identity). -/
def serBlob (b : Blob) : Blob :=
  b.length :: b

/-- Decoding inverse of `serBlob`. -/
def deBlob (b : Blob) : Option Blob :=
  match b with
  | [] => none
  | n :: rest => if rest.length = n then some rest else none

/-- Association-list lookup, the value stored at a key of a sled tree. -/
def treeLookup {α β : Type} [DecidableEq α] : List (α × β) → α → Option β
  | [], _ => none
  | (k', v) :: rest, k => if k' = k then some v else treeLookup rest k

/-- `Tree::remove`: drop the entry at a key. -/
def treeRemove {α β : Type} [DecidableEq α] : List (α × β) → α → List (α × β)
  | [], _ => []
  | (k', v) :: rest, k =>
    if k' = k then treeRemove rest k else (k', v) :: treeRemove rest k

/-- `Tree::insert`: overwrite the entry at a key. -/
def treeInsert {α β : Type} [DecidableEq α] (t : List (α × β)) (k : α) (v : β) :
    List (α × β) :=
  (k, v) :: treeRemove t k

/-- The five trees of a namespace (`old/namespace.rs`). -/
structure NS where
  labels : List (LabelID × Label)
  labels_inverse : List (LIKey × LabelID)
  data : List (ObjectID × Blob)
  data_labels : List (ObjectID × List LabelID)
  data_labels_inverse : List (LabelID × List ObjectID)
deriving DecidableEq

def emptyNS : NS :=
  ⟨[], [], [], [], []⟩

/-- The shared one-shot request error (`QueryError` in each request file). -/
inductive QueryError where
  | AlreadyExecuted
  | NotYetExecuted
  | Undefined
deriving DecidableEq, Repr

/-! ## Query execution (`old/query.rs`) -/

/-- The value stored under a label's LabelID in `data_labels_inverse`,
empty when the label has no entry (the `Ok(None) => {}` arm). -/
def dliGet (st : NS) (l : Label) : List ObjectID :=
  (treeLookup st.data_labels_inverse l.id).getD []

def dliSet (st : NS) (l : Label) : Finset ObjectID :=
  (dliGet st l).toFinset

/-- `scan_prefix` over `labels_inverse`: the label texts stored as raw text
keys that begin with the given prefix (serialized-LabelID keys never match
a text prefix). -/
def textScan (li : List (LIKey × LabelID)) (p : String) : List String :=
  li.filterMap (fun kv =>
    match kv.1 with
    | LIKey.text s => if p.data.isPrefixOf s.data then some s else none
    | LIKey.serId _ => none)

/-- `QueryRequest` of `old/query.rs`: include and exclude labels, prefix
labels, and the one-shot `executed` flag. -/
structure QueryRequest where
  include_labels : List Label
  exclude_labels : List Label
  prefixes : List Label
  executed : Bool
deriving DecidableEq

/-- The query body of `QueryRequest::execute`: expand prefixes into the
include set, union the `data_labels_inverse` lists of the includes,
union those of the excludes, and keep the included ids not excluded. -/
def queryTx (st : NS) (includes excludes prefixes : List Label) :
    Finset ObjectID :=
  let all_includes :=
    includes ++ prefixes.flatMap (fun l => (textScan st.labels_inverse l.data).map Label.mk)
  let include_object_ids := all_includes.foldl (fun acc l => acc ∪ dliSet st l) ∅
  let exclude_label_ids := excludes.foldl (fun acc l => acc ∪ dliSet st l) ∅
  include_object_ids.filter (fun o => o ∉ exclude_label_ids)

/-- `QueryRequest::execute` (`old/query.rs`): fails when already executed,
otherwise marks the request executed and runs the query body. -/
def QueryRequest.execute (req : QueryRequest) (st : NS) :
    Except QueryError (Finset ObjectID × QueryRequest) :=
  if req.executed then Except.error QueryError.AlreadyExecuted
  else
    Except.ok (queryTx st req.include_labels req.exclude_labels req.prefixes,
      { req with executed := true })

/-- `QueryRequest` of `src/query.rs`: same shape without the prefix set. -/
structure QueryRequestV2 where
  include_labels : List Label
  exclude_labels : List Label
  executed : Bool
deriving DecidableEq

/-- `QueryRequest::execute` of `src/query.rs`: the guard, then the same
include/exclude body (no prefix loop); `take()` empties the label sets of
the request. -/
def QueryRequestV2.execute (req : QueryRequestV2) (st : NS) :
    Except QueryError (Finset ObjectID × QueryRequestV2) :=
  if req.executed then Except.error QueryError.AlreadyExecuted
  else
    Except.ok (queryTx st req.include_labels req.exclude_labels [],
      ⟨[], [], true⟩)

/-! ## Insert (`src/insert.rs`) -/

/-- The transaction body of `InsertRequest::execute`: write the blob, the
label forward/inverse entries, the `data_labels` list, and upsert the id
into each label's `data_labels_inverse` list (the code pushes the id
unconditionally after reading the old list). -/
def dliUpsert (t : List (LabelID × List ObjectID)) (lid : LabelID)
    (oid : ObjectID) : List (LabelID × List ObjectID) :=
  match treeLookup t lid with
  | some old => treeInsert t lid (old ++ [oid])
  | none => treeInsert t lid [oid]

/-- One iteration of the label loop of `InsertRequest::execute`: write
`labels[L] ← label` and `labels_inverse[text] ← L`. -/
def insLabelStep (s : NS) (l : Label) : NS :=
  { s with labels := treeInsert s.labels l.id l,
           labels_inverse := treeInsert s.labels_inverse (LIKey.text l.data) l.id }

def dliFold (t : List (LabelID × List ObjectID)) (ids : List LabelID)
    (oid : ObjectID) : List (LabelID × List ObjectID) :=
  ids.foldl (fun t lid => dliUpsert t lid oid) t

def insertTx (st : NS) (oid : ObjectID) (obj : Blob) (labels : List Label) :
    NS :=
  let st1 := { st with data := treeInsert st.data oid (serBlob obj) }
  let st2 := labels.foldl insLabelStep st1
  let label_ids := labels.map Label.id
  let st3 := { st2 with data_labels := treeInsert st2.data_labels oid label_ids }
  { st3 with
    data_labels_inverse := dliFold st3.data_labels_inverse label_ids oid }

/-- `InsertRequest`: payload, ObjectID, labels, one-shot flag. -/
structure InsertRequest where
  id : ObjectID
  obj : Blob
  labels : List Label
  executed : Bool
deriving DecidableEq

/-- `InsertRequest::new`: the ObjectID is the `DefaultHasher` hash of the
payload bytes. -/
def InsertRequest.new (payload : Blob) : InsertRequest :=
  ⟨hashBytes payload, payload, [], false⟩

def InsertRequest.execute (req : InsertRequest) (st : NS) :
    Except QueryError (ObjectID × NS) :=
  if req.executed then Except.error QueryError.AlreadyExecuted
  else Except.ok (req.id, insertTx st req.id req.obj req.labels)

/-! ## Get (`old/namespace.rs::get_one`) -/

/-- `Namespace::get_one`: the stored bytes are returned as read from the
`data` tree; labels are resolved through `data_labels` and `labels`,
skipping ids without a `labels` entry. -/
def getOne (st : NS) (oid : ObjectID) :
    ObjectID × Option (List Label) × Option Blob :=
  match treeLookup st.data oid with
  | none => (oid, none, none)
  | some bytes =>
    let labelids := (treeLookup st.data_labels oid).getD []
    let labels := labelids.filterMap (fun lid => treeLookup st.labels lid)
    (oid, some labels, some bytes)

/-! ## Delete (`src/delete.rs`) -/

/-- Per-label cleanup inside the delete transaction: remove the
`data_labels_inverse` entry; when its list had length ≤ 1 also remove the
`labels` entry and remove from `labels_inverse` the key obtained by
serializing the LabelID (`Self::ser(label)` — not the label text);
otherwise write back the list with the object filtered out. -/
def delLabelStep (oid : ObjectID) (t : NS) (lid : LabelID) : NS :=
  match treeLookup t.data_labels_inverse lid with
  | some ids =>
    let t1 := { t with data_labels_inverse := treeRemove t.data_labels_inverse lid }
    if ids.length ≤ 1 then
      { t1 with labels := treeRemove t1.labels lid,
                labels_inverse := treeRemove t1.labels_inverse (LIKey.serId lid) }
    else
      { t1 with data_labels_inverse :=
          treeInsert t1.data_labels_inverse lid (ids.filter (fun i => decide (i ≠ oid))) }
  | none => t

/-- Per-object body of `DeleteRequest::execute`. -/
def delObjStep (t : NS) (oid : ObjectID) : NS :=
  let t1 := { t with data := treeRemove t.data oid }
  let labs := (treeLookup t1.data_labels oid).getD []
  let t2 := { t1 with data_labels := treeRemove t1.data_labels oid }
  labs.foldl (delLabelStep oid) t2

def deleteTx (st : NS) (objs : List ObjectID) : NS :=
  objs.foldl delObjStep st

/-- `DeleteRequest`: the object set and the one-shot flag. `execute` sets
the flag and takes the objects; it has no already-executed guard in
`src/delete.rs`. -/
structure DeleteRequest where
  objects : List ObjectID
  executed : Bool
deriving DecidableEq

def DeleteRequest.execute (req : DeleteRequest) (st : NS) : NS × DeleteRequest :=
  (deleteTx st req.objects, ⟨[], true⟩)

/-! ## DB handle models -/

/-- Substrate tree names: raw strings (`old/db.rs`) versus
bincode-serialized strings (`src/namespace.rs`); the two encodings differ
on the wire. -/
inductive TreeName where
  | plain (s : String)
  | bin (s : String)
deriving DecidableEq, Repr

/-- ASCII Unit Separator, the composite-key separator. -/
def US : String := "\u001F"

/-- `sled::Db::open_tree`: creates the tree when absent, otherwise reuses
it; the database state is its set of tree names. -/
def sledOpenTree (ts : List TreeName) (n : TreeName) : List TreeName :=
  if n ∈ ts then ts else ts ++ [n]

def fiveRoles : List String :=
  ["labels", "labels_inverse", "data", "data_labels", "data_labels_inverse"]

/-- `Db::open_namespace` of `old/db.rs` via `Namespace::open_from_db`:
opens the five `<name><US><role>` trees; there is no reserved-name check
in this draft. -/
def Db.openNamespace (ts : List TreeName) (name : String) : List TreeName :=
  fiveRoles.foldl (fun acc role => sledOpenTree acc (TreeName.plain (name ++ US ++ role))) ts

inductive MangoChainsawError where
  | BadNamespaceName (s : String)
deriving DecidableEq, Repr

def reservedNames : List String := ["ext", "namespace", "namespaces"]

def threeRoles : List String := ["blobs", "labels", "relations"]

/-- `DB::open_namespace` of `src/___/db.rs` with `Namespace::new` of
`src/namespace.rs`: rejects the reserved names, otherwise opens the three
bincode-named `<name><US><role>` trees for role ∈ {blobs, labels,
relations}. -/
def DB.openNamespaceV3 (ts : List TreeName) (name : String) :
    Except MangoChainsawError (List TreeName) :=
  if name ∈ reservedNames then Except.error (MangoChainsawError.BadNamespaceName name)
  else
    Except.ok
      (threeRoles.foldl (fun acc role => sledOpenTree acc (TreeName.bin (name ++ US ++ role))) ts)

/-! ## `DB::list_namespaces` (`src/db.rs`) -/

/-- One stripping pass bounded by fuel: `str::trim_end_matches` removes
every repetition of the pattern from the end. -/
def trimEndAux : Nat → List Char → List Char → List Char
  | 0, s, _ => s
  | fuel + 1, s, pat =>
    if pat.isEmpty then s
    else if pat.isSuffixOf s then trimEndAux fuel (s.take (s.length - pat.length)) pat
    else s

def trimEndMatches (s pat : String) : String :=
  ⟨trimEndAux s.data.length s.data pat.data⟩

/-- Insertion into a sorted list; `sortStrings` models `Vec::sort` under
the lexicographic string order, whose result is the unique sorted
permutation. -/
def insertSorted (x : String) : List String → List String
  | [] => [x]
  | y :: ys => if x ≤ y then x :: y :: ys else y :: insertSorted x ys

def sortStrings (l : List String) : List String :=
  l.foldr insertSorted []

/-- `Vec::dedup`: collapse adjacent equal elements. -/
def dedupAdj : List String → List String
  | [] => []
  | [a] => [a]
  | a :: b :: rest =>
    if a = b then dedupAdj (b :: rest) else a :: dedupAdj (b :: rest)

/-- The per-tree-name step of `DB::list_namespaces`: drop substrate trees
(prefix `__sled__`), then strip every trailing `_labels`, then every
trailing `_blobs`. -/
def listNamespacesStep (t : String) : Option String :=
  if t.data.take 8 = "__sled__".data then none
  else some (trimEndMatches (trimEndMatches t "_labels") "_blobs")

/-- `DB::list_namespaces`: filter-map over the tree names, sort, dedup. -/
def listNamespaces (trees : List String) : List String :=
  dedupAdj (sortStrings (trees.filterMap listNamespacesStep))

/-! ## Tree lemmas -/

theorem treeLookup_remove_self {α β : Type} [DecidableEq α]
    (t : List (α × β)) (k : α) : treeLookup (treeRemove t k) k = none := by
  induction t with
  | nil => rfl
  | cons p rest ih =>
    obtain ⟨k', v⟩ := p
    by_cases h : k' = k
    · simpa [treeRemove, h] using ih
    · simpa [treeRemove, treeLookup, h] using ih

theorem treeLookup_remove_ne {α β : Type} [DecidableEq α]
    (t : List (α × β)) {k k' : α} (h : k' ≠ k) :
    treeLookup (treeRemove t k) k' = treeLookup t k' := by
  induction t with
  | nil => rfl
  | cons p rest ih =>
    obtain ⟨a, v⟩ := p
    by_cases ha : a = k
    · subst ha
      simp [treeRemove, treeLookup, Ne.symm h, ih]
    · by_cases ha' : a = k'
      · simp [treeRemove, treeLookup, ha, ha', h]
      · simp [treeRemove, treeLookup, ha, ha', ih]

theorem treeLookup_insert_self {α β : Type} [DecidableEq α]
    (t : List (α × β)) (k : α) (v : β) :
    treeLookup (treeInsert t k v) k = some v := by
  simp [treeInsert, treeLookup]

theorem treeLookup_insert_ne {α β : Type} [DecidableEq α]
    (t : List (α × β)) {k k' : α} (v : β) (h : k' ≠ k) :
    treeLookup (treeInsert t k v) k' = treeLookup t k' := by
  simp [treeInsert, treeLookup, Ne.symm h, treeLookup_remove_ne t h]

theorem treeRemove_of_lookup_none {α β : Type} [DecidableEq α]
    (t : List (α × β)) (k : α) (h : treeLookup t k = none) :
    treeRemove t k = t := by
  induction t with
  | nil => rfl
  | cons p rest ih =>
    obtain ⟨a, v⟩ := p
    by_cases ha : a = k
    · simp [treeLookup, ha] at h
    · simp only [treeLookup, if_neg ha] at h
      simp [treeRemove, ha, ih h]

/-! ## Fold lemmas for insert, delete and query -/

theorem foldl_union_biUnion (f : Label → Finset ObjectID) :
    ∀ (ls : List Label) (acc : Finset ObjectID),
      ls.foldl (fun a l => a ∪ f l) acc = acc ∪ ls.toFinset.biUnion f := by
  intro ls
  induction ls with
  | nil => intro acc; simp
  | cons x xs ih =>
    intro acc
    simp only [List.foldl_cons, ih, List.toFinset_cons, Finset.biUnion_insert]
    rw [Finset.union_assoc]

theorem labelsFold_data (L : List Label) (s : NS) :
    (L.foldl insLabelStep s).data = s.data := by
  induction L generalizing s with
  | nil => rfl
  | cons x xs ih => simp [List.foldl_cons, ih, insLabelStep]

theorem labelsFold_data_labels (L : List Label) (s : NS) :
    (L.foldl insLabelStep s).data_labels = s.data_labels := by
  induction L generalizing s with
  | nil => rfl
  | cons x xs ih => simp [List.foldl_cons, ih, insLabelStep]

theorem labelsFold_dli (L : List Label) (s : NS) :
    (L.foldl insLabelStep s).data_labels_inverse = s.data_labels_inverse := by
  induction L generalizing s with
  | nil => rfl
  | cons x xs ih => simp [List.foldl_cons, ih, insLabelStep]

theorem insertTx_data (st : NS) (oid : ObjectID) (obj : Blob)
    (labels : List Label) :
    (insertTx st oid obj labels).data = treeInsert st.data oid (serBlob obj) := by
  simp [insertTx, labelsFold_data]

theorem insertTx_data_labels (st : NS) (oid : ObjectID) (obj : Blob)
    (labels : List Label) :
    (insertTx st oid obj labels).data_labels =
      treeInsert st.data_labels oid (labels.map Label.id) := by
  simp [insertTx, labelsFold_data_labels]

theorem insertTx_dli (st : NS) (oid : ObjectID) (obj : Blob)
    (labels : List Label) :
    (insertTx st oid obj labels).data_labels_inverse =
      dliFold st.data_labels_inverse (labels.map Label.id) oid := by
  simp [insertTx, labelsFold_dli]

theorem dliUpsert_lookup_ne (t : List (LabelID × List ObjectID))
    {lid a : LabelID} (oid : ObjectID) (h : lid ≠ a) :
    treeLookup (dliUpsert t a oid) lid = treeLookup t lid := by
  unfold dliUpsert
  cases treeLookup t a with
  | some old => exact treeLookup_insert_ne t _ h
  | none => exact treeLookup_insert_ne t _ h

theorem dliUpsert_lookup_self (t : List (LabelID × List ObjectID))
    (a : LabelID) (oid : ObjectID) :
    ∃ v, treeLookup (dliUpsert t a oid) a = some v ∧ oid ∈ v := by
  unfold dliUpsert
  cases treeLookup t a with
  | some old => exact ⟨old ++ [oid], treeLookup_insert_self _ _ _, by simp⟩
  | none => exact ⟨[oid], treeLookup_insert_self _ _ _, by simp⟩

theorem dliFold_lookup_mem (oid : ObjectID) :
    ∀ (ids : List LabelID) (t : List (LabelID × List ObjectID)) (lid : LabelID),
      (lid ∈ ids ∨ ∃ v, treeLookup t lid = some v ∧ oid ∈ v) →
      ∃ v, treeLookup (dliFold t ids oid) lid = some v ∧ oid ∈ v := by
  intro ids
  induction ids with
  | nil =>
    intro t lid h
    rcases h with h | h
    · simp at h
    · simpa [dliFold] using h
  | cons a rest ih =>
    intro t lid h
    have hstep : lid ∈ rest ∨
        ∃ v, treeLookup (dliUpsert t a oid) lid = some v ∧ oid ∈ v := by
      by_cases hla : lid = a
      · subst hla
        exact Or.inr (dliUpsert_lookup_self t lid oid)
      · rcases h with h | ⟨v, hv, hm⟩
        · rcases List.mem_cons.mp h with h | h
          · exact absurd h hla
          · exact Or.inl h
        · exact Or.inr ⟨v, by rw [dliUpsert_lookup_ne t oid hla]; exact hv, hm⟩
    simpa [dliFold, List.foldl_cons] using ih (dliUpsert t a oid) lid hstep

theorem delLabelStep_data (oid : ObjectID) (t : NS) (lid : LabelID) :
    (delLabelStep oid t lid).data = t.data := by
  unfold delLabelStep
  cases treeLookup t.data_labels_inverse lid with
  | none => rfl
  | some ids => by_cases h : ids.length ≤ 1 <;> simp [h]

theorem delLabelStep_data_labels (oid : ObjectID) (t : NS) (lid : LabelID) :
    (delLabelStep oid t lid).data_labels = t.data_labels := by
  unfold delLabelStep
  cases treeLookup t.data_labels_inverse lid with
  | none => rfl
  | some ids => by_cases h : ids.length ≤ 1 <;> simp [h]

theorem delFold_data (oid : ObjectID) (labs : List LabelID) (t : NS) :
    (labs.foldl (delLabelStep oid) t).data = t.data := by
  induction labs generalizing t with
  | nil => rfl
  | cons x xs ih => simp [List.foldl_cons, ih, delLabelStep_data]

theorem delFold_data_labels (oid : ObjectID) (labs : List LabelID) (t : NS) :
    (labs.foldl (delLabelStep oid) t).data_labels = t.data_labels := by
  induction labs generalizing t with
  | nil => rfl
  | cons x xs ih => simp [List.foldl_cons, ih, delLabelStep_data_labels]

theorem delObjStep_data (t : NS) (oid : ObjectID) :
    (delObjStep t oid).data = treeRemove t.data oid := by
  simp [delObjStep, delFold_data]

theorem delObjStep_data_labels (t : NS) (oid : ObjectID) :
    (delObjStep t oid).data_labels = treeRemove t.data_labels oid := by
  simp [delObjStep, delFold_data_labels]

theorem delObjStep_of_absent (t : NS) (oid : ObjectID)
    (h1 : treeLookup t.data oid = none)
    (h2 : treeLookup t.data_labels oid = none) :
    delObjStep t oid = t := by
  unfold delObjStep
  simp only [h2, treeRemove_of_lookup_none _ _ h1, treeRemove_of_lookup_none _ _ h2,
    Option.getD_none, List.foldl_nil]

/-! ## Lemmas about `sledOpenTree` folds -/

theorem sledOpenTree_mem_self (ts : List TreeName) (n : TreeName) :
    n ∈ sledOpenTree ts n := by
  unfold sledOpenTree
  by_cases h : n ∈ ts <;> simp [h]

theorem sledOpenTree_mem_mono (ts : List TreeName) {m : TreeName} (n : TreeName)
    (h : m ∈ ts) : m ∈ sledOpenTree ts n := by
  unfold sledOpenTree
  by_cases hn : n ∈ ts <;> simp [hn, h]

theorem sledOpenTree_of_mem (ts : List TreeName) {n : TreeName} (h : n ∈ ts) :
    sledOpenTree ts n = ts := by
  simp [sledOpenTree, h]

theorem openFold_mono {α : Type} (enc : α → TreeName) :
    ∀ (roles : List α) (ts : List TreeName) (m : TreeName), m ∈ ts →
      m ∈ roles.foldl (fun acc r => sledOpenTree acc (enc r)) ts := by
  intro roles
  induction roles with
  | nil => intro ts m h; simpa using h
  | cons r rest ih =>
    intro ts m h
    exact ih (sledOpenTree ts (enc r)) m (sledOpenTree_mem_mono ts (enc r) h)

theorem openFold_mem {α : Type} (enc : α → TreeName) :
    ∀ (roles : List α) (ts : List TreeName) (r : α), r ∈ roles →
      enc r ∈ roles.foldl (fun acc r => sledOpenTree acc (enc r)) ts := by
  intro roles
  induction roles with
  | nil => intro ts r h; simp at h
  | cons a rest ih =>
    intro ts r h
    rcases List.mem_cons.mp h with h | h
    · subst h
      exact openFold_mono enc rest _ _ (sledOpenTree_mem_self ts (enc r))
    · exact ih _ r h

theorem openFold_of_all_mem {α : Type} (enc : α → TreeName) :
    ∀ (roles : List α) (ts : List TreeName), (∀ r ∈ roles, enc r ∈ ts) →
      roles.foldl (fun acc r => sledOpenTree acc (enc r)) ts = ts := by
  intro roles
  induction roles with
  | nil => intro ts _; rfl
  | cons a rest ih =>
    intro ts h
    have ha : sledOpenTree ts (enc a) = ts := sledOpenTree_of_mem ts (h a (by simp))
    simp only [List.foldl_cons, ha]
    exact ih ts (fun r hr => h r (by simp [hr]))

/-! ## Lemmas about sorting and adjacent dedup -/

theorem insertSorted_mem (a x : String) (l : List String) :
    x ∈ insertSorted a l ↔ x = a ∨ x ∈ l := by
  induction l with
  | nil => simp [insertSorted]
  | cons y ys ih =>
    by_cases h : a ≤ y
    · simp [insertSorted, h]
    · simp only [insertSorted, if_neg h, List.mem_cons, ih]
      tauto

theorem insertSorted_sorted (a : String) (l : List String)
    (hs : l.Sorted (· ≤ ·)) : (insertSorted a l).Sorted (· ≤ ·) := by
  induction l with
  | nil => simp [insertSorted]
  | cons y ys ih =>
    rcases List.sorted_cons.mp hs with ⟨hy, hys⟩
    by_cases h : a ≤ y
    · simp only [insertSorted, if_pos h]
      refine List.sorted_cons.mpr ⟨?_, hs⟩
      intro b hb
      rcases List.mem_cons.mp hb with hb | hb
      · exact hb ▸ h
      · exact le_trans h (hy b hb)
    · simp only [insertSorted, if_neg h]
      refine List.sorted_cons.mpr ⟨?_, ih hys⟩
      intro b hb
      rcases (insertSorted_mem a b ys).mp hb with hb | hb
      · exact hb ▸ le_of_not_le h
      · exact hy b hb

theorem sortStrings_mem (x : String) (l : List String) :
    x ∈ sortStrings l ↔ x ∈ l := by
  induction l with
  | nil => simp [sortStrings]
  | cons a rest ih =>
    simp only [sortStrings, List.foldr_cons] at *
    rw [insertSorted_mem, ih, List.mem_cons]

theorem sortStrings_sorted (l : List String) :
    (sortStrings l).Sorted (· ≤ ·) := by
  induction l with
  | nil => simp [sortStrings]
  | cons a rest ih =>
    simpa only [sortStrings, List.foldr_cons] using
      insertSorted_sorted a (sortStrings rest) ih

theorem dedupAdj_mem (x : String) :
    ∀ (l : List String), x ∈ dedupAdj l ↔ x ∈ l := by
  intro l
  induction l with
  | nil => simp [dedupAdj]
  | cons a rest ih =>
    cases rest with
    | nil => simp [dedupAdj]
    | cons b rest' =>
      by_cases h : a = b
      · subst h
        have e : dedupAdj (a :: a :: rest') = dedupAdj (a :: rest') := by
          simp [dedupAdj]
        rw [e, ih]
        simp only [List.mem_cons]
        tauto
      · have e : dedupAdj (a :: b :: rest') = a :: dedupAdj (b :: rest') := by
          simp [dedupAdj, h]
        rw [e]
        simp only [List.mem_cons, ih]

theorem dedupAdj_sorted :
    ∀ (l : List String), l.Sorted (· ≤ ·) → (dedupAdj l).Sorted (· ≤ ·) := by
  intro l
  induction l with
  | nil => intro _; simp [dedupAdj]
  | cons a rest ih =>
    intro hs
    rcases List.sorted_cons.mp hs with ⟨ha, hrest⟩
    cases rest with
    | nil => simp [dedupAdj]
    | cons b rest' =>
      by_cases h : a = b
      · subst h
        simpa [dedupAdj] using ih hrest
      · simp only [dedupAdj, if_neg h]
        refine List.sorted_cons.mpr ⟨?_, ih hrest⟩
        intro x hx
        exact ha x ((dedupAdj_mem x (b :: rest')).mp hx)

theorem dedupAdj_nodup :
    ∀ (l : List String), l.Sorted (· ≤ ·) → (dedupAdj l).Nodup := by
  intro l
  induction l with
  | nil => intro _; simp [dedupAdj]
  | cons a rest ih =>
    intro hs
    rcases List.sorted_cons.mp hs with ⟨ha, hrest⟩
    cases rest with
    | nil => simp [dedupAdj]
    | cons b rest' =>
      by_cases h : a = b
      · subst h
        simpa [dedupAdj] using ih hrest
      · simp only [dedupAdj, if_neg h]
        refine List.nodup_cons.mpr ⟨?_, ih hrest⟩
        intro hmem
        have hx : a ∈ b :: rest' := (dedupAdj_mem a (b :: rest')).mp hmem
        have hab : a ≤ b := ha b (by simp)
        have hba : b ≤ a := by
          rcases List.mem_cons.mp hx with hx | hx
          · exact hx ▸ le_refl a
          · exact (List.sorted_cons.mp hrest).1 a hx
        exact h (le_antisymm hab hba)

/-! ## Claim theorems -/

/-- C1: executing a query request returns exactly the union of the
`data_labels_inverse` lists of the include labels and of the labels whose
text is yielded by prefix expansion, minus the union of the
`data_labels_inverse` lists of the exclude labels; with empty include and
prefix sets the two left unions are empty, and a label with no
`data_labels_inverse` entry contributes the empty set. -/
theorem spec_c1_query_set_semantics (st : NS) (I E P : List Label) :
    QueryRequest.execute ⟨I, E, P, false⟩ st =
      Except.ok
        ((I.toFinset.biUnion (dliSet st) ∪
            (P.flatMap (fun l => textScan st.labels_inverse l.data)).toFinset.biUnion
              (fun t => dliSet st ⟨t⟩)) \
          E.toFinset.biUnion (dliSet st),
         ⟨I, E, P, true⟩) := by
  have hset : queryTx st I E P =
      (I.toFinset.biUnion (dliSet st) ∪
          (P.flatMap (fun l => textScan st.labels_inverse l.data)).toFinset.biUnion
            (fun t => dliSet st ⟨t⟩)) \
        E.toFinset.biUnion (dliSet st) := by
    simp only [queryTx]
    rw [foldl_union_biUnion, foldl_union_biUnion]
    ext o
    simp only [Finset.mem_filter, Finset.empty_union, Finset.mem_biUnion, Finset.mem_union,
      Finset.mem_sdiff, List.mem_toFinset, List.mem_append, List.mem_map, List.mem_flatMap]
    constructor
    · rintro ⟨⟨l, hl | ⟨p, hp, s, hs, rfl⟩, ho⟩, hno⟩
      · exact ⟨Or.inl ⟨l, hl, ho⟩, hno⟩
      · exact ⟨Or.inr ⟨s, ⟨p, hp, hs⟩, ho⟩, hno⟩
    · rintro ⟨⟨l, hl, ho⟩ | ⟨s, ⟨p, hp, hs⟩, ho⟩, hno⟩
      · exact ⟨⟨l, Or.inl hl, ho⟩, hno⟩
      · exact ⟨⟨⟨s⟩, Or.inr ⟨p, hp, s, hs, rfl⟩, ho⟩, hno⟩
  simp [QueryRequest.execute, hset]

/-- C2 (code bug): deleting the sole referent of a label removes the
`labels` entry and the `data_labels_inverse` entry, but the
`labels_inverse` entry keyed by the label's canonical text survives,
because `src/delete.rs` removes a serialized-LabelID key instead of the
text key — contradicting the claim (and spec property P7). -/
theorem spec_c2_delete_label_text_leak :
    treeLookup (deleteTx (insertTx emptyNS 7 [1] [Label.mk "k=v"]) [7]).labels
        (Label.mk "k=v").id = none ∧
    treeLookup (deleteTx (insertTx emptyNS 7 [1] [Label.mk "k=v"]) [7]).data_labels_inverse
        (Label.mk "k=v").id = none ∧
    treeLookup (deleteTx (insertTx emptyNS 7 [1] [Label.mk "k=v"]) [7]).labels_inverse
        (LIKey.text "k=v") = some (Label.mk "k=v").id := by
  decide

/-- C3 counterexample: `get` after `insert` does not return the inserted
bytes — it returns the raw value stored in the `data` tree, which is the
serialized form of the payload, not the payload. -/
theorem spec_c3_get_insert_counterexample :
    (getOne (insertTx emptyNS 7 [104, 105] []) 7).2.2 ≠ some [104, 105] := by
  decide

/-- C3 (amended): `get` after `insert` returns the canonical serialized
encoding of the inserted payload, which decodes back to exactly the
inserted bytes. -/
theorem spec_c3_get_insert_roundtrip (st : NS) (oid : ObjectID) (b : Blob)
    (L : List Label) :
    (getOne (insertTx st oid b L) oid).2.2 = some (serBlob b) ∧
    deBlob (serBlob b) = some b := by
  constructor
  · have h : treeLookup (insertTx st oid b L).data oid = some (serBlob b) := by
      rw [insertTx_data]
      exact treeLookup_insert_self _ _ _
    simp [getOne, h]
  · simp [deBlob, serBlob]

/-- C4 (code bug): inserting the same ObjectID twice with the same label
leaves a duplicated `data_labels_inverse` list `[7, 7]`, violating
invariant I5 — the upsert of `src/insert.rs` pushes the id without
checking presence. -/
theorem spec_c4_dli_duplicate :
    treeLookup (insertTx (insertTx emptyNS 7 [1] [Label.mk "k=v"]) 7 [1]
        [Label.mk "k=v"]).data_labels_inverse (Label.mk "k=v").id = some [7, 7] ∧
    ¬ ((treeLookup (insertTx (insertTx emptyNS 7 [1] [Label.mk "k=v"]) 7 [1]
        [Label.mk "k=v"]).data_labels_inverse (Label.mk "k=v").id).getD []).Nodup := by
  decide

/-- C5: after inserting a blob with label set `L` under ObjectID `oid`,
a query including any non-empty subset of `L` returns a set containing
`oid`, and a query excluding such a subset (whatever its include and
prefix sets) returns a set not containing `oid`. -/
theorem spec_c5_insert_query_membership (st : NS) (b : Blob) (oid : ObjectID)
    (L Lp I P : List Label) (hne : Lp ≠ []) (hsub : ∀ l ∈ Lp, l ∈ L) :
    oid ∈ queryTx (insertTx st oid b L) Lp [] [] ∧
    oid ∉ queryTx (insertTx st oid b L) I Lp P := by
  have hmem : ∀ l ∈ L, oid ∈ dliSet (insertTx st oid b L) l := by
    intro l hl
    obtain ⟨v, hv, hm⟩ :=
      dliFold_lookup_mem oid (L.map Label.id) st.data_labels_inverse l.id
        (Or.inl (List.mem_map_of_mem Label.id hl))
    rw [← insertTx_dli st oid b L] at hv
    simp [dliSet, dliGet, hv, hm]
  obtain ⟨l0, hl0⟩ := List.exists_mem_of_ne_nil Lp hne
  constructor
  · simp only [queryTx]
    rw [foldl_union_biUnion, foldl_union_biUnion]
    refine Finset.mem_filter.mpr ⟨?_, ?_⟩
    · exact Finset.mem_union_right _
        (Finset.mem_biUnion.mpr ⟨l0, by simp [hl0], hmem l0 (hsub l0 hl0)⟩)
    · simp
  · intro hcon
    simp only [queryTx] at hcon
    rw [foldl_union_biUnion, foldl_union_biUnion] at hcon
    rcases Finset.mem_filter.mp hcon with ⟨_, hno⟩
    exact hno (Finset.mem_union_right _
      (Finset.mem_biUnion.mpr ⟨l0, List.mem_toFinset.mpr hl0, hmem l0 (hsub l0 hl0)⟩))

/-- C5 witness: a concrete instantiation of
`spec_c5_insert_query_membership`. -/
theorem spec_c5_witness :
    42 ∈ queryTx (insertTx emptyNS 42 [1] [Label.mk "a"]) [Label.mk "a"] [] [] ∧
    42 ∉ queryTx (insertTx emptyNS 42 [1] [Label.mk "a"]) [] [Label.mk "a"] [] := by
  exact spec_c5_insert_query_membership emptyNS [1] 42 [Label.mk "a"] [Label.mk "a"]
    [] [] (by decide) (by intro l hl; simpa using hl)

/-- C6: delete is idempotent — deleting an ObjectID twice leaves all five
trees exactly as deleting it once; and deleting an unknown ObjectID (one
with no `data` entry — in any committed state such an id also has no
`data_labels` entry, by invariant I2/I4) is a silent no-op that changes no
tree. -/
theorem spec_c6_delete_idempotent :
    (∀ (st : NS) (O : ObjectID), deleteTx (deleteTx st [O]) [O] = deleteTx st [O]) ∧
    (∀ (st : NS) (O : ObjectID), treeLookup st.data O = none →
      treeLookup st.data_labels O = none → deleteTx st [O] = st) := by
  have hone : ∀ (st : NS) (O : ObjectID), deleteTx st [O] = delObjStep st O := by
    intro st O
    simp [deleteTx]
  have habs : ∀ (st : NS) (O : ObjectID), treeLookup st.data O = none →
      treeLookup st.data_labels O = none → deleteTx st [O] = st := by
    intro st O h1 h2
    rw [hone, delObjStep_of_absent st O h1 h2]
  refine ⟨?_, habs⟩
  intro st O
  apply habs
  · rw [hone, delObjStep_data]
    exact treeLookup_remove_self _ _
  · rw [hone, delObjStep_data_labels]
    exact treeLookup_remove_self _ _

/-- C6 witness: a concrete instantiation of `spec_c6_delete_idempotent`. -/
theorem spec_c6_witness :
    deleteTx (deleteTx emptyNS [5]) [5] = deleteTx emptyNS [5] ∧
    deleteTx emptyNS [5] = emptyNS :=
  ⟨spec_c6_delete_idempotent.1 emptyNS 5,
   spec_c6_delete_idempotent.2 emptyNS 5 rfl rfl⟩

/-- C7 counterexample: in the five-tree draft (`old/db.rs`),
`open_namespace` accepts the reserved name `ext` and opens its five trees
— it cannot fail with `BadNamespaceName`, contradicting the claim. -/
theorem spec_c7_reserved_name_counterexample :
    Db.openNamespace [] "ext" =
      [TreeName.plain ("ext" ++ US ++ "labels"),
       TreeName.plain ("ext" ++ US ++ "labels_inverse"),
       TreeName.plain ("ext" ++ US ++ "data"),
       TreeName.plain ("ext" ++ US ++ "data_labels"),
       TreeName.plain ("ext" ++ US ++ "data_labels_inverse")] := by
  decide

/-- C7 (amended): the five-tree draft opens the five `<name><US><role>`
trees for every name — reserved names included — and is idempotent; the
reserved-name rejection lives only in the `src/___/db.rs` draft, which
fails with `BadNamespaceName` on {ext, namespace, namespaces} and
otherwise idempotently opens the three bincode-named trees
{blobs, labels, relations}. -/
theorem spec_c7_open_namespace_drafts :
    (∀ (ts : List TreeName) (name : String),
      Db.openNamespace (Db.openNamespace ts name) name = Db.openNamespace ts name) ∧
    (∀ (ts : List TreeName) (name role : String), role ∈ fiveRoles →
      TreeName.plain (name ++ US ++ role) ∈ Db.openNamespace ts name) ∧
    (∀ (ts : List TreeName) (name : String), name ∈ reservedNames →
      DB.openNamespaceV3 ts name =
        Except.error (MangoChainsawError.BadNamespaceName name)) ∧
    (∀ (ts : List TreeName) (name : String), name ∉ reservedNames →
      ∃ ts2, DB.openNamespaceV3 ts name = Except.ok ts2 ∧
        (∀ role ∈ threeRoles, TreeName.bin (name ++ US ++ role) ∈ ts2) ∧
        DB.openNamespaceV3 ts2 name = Except.ok ts2) := by
  refine ⟨?_, ?_, ?_, ?_⟩
  · intro ts name
    unfold Db.openNamespace
    exact openFold_of_all_mem (fun role => TreeName.plain (name ++ US ++ role))
      fiveRoles _ (fun r hr => openFold_mem _ fiveRoles ts r hr)
  · intro ts name role hrole
    exact openFold_mem (fun role => TreeName.plain (name ++ US ++ role))
      fiveRoles ts role hrole
  · intro ts name h
    simp [DB.openNamespaceV3, h]
  · intro ts name h
    refine ⟨threeRoles.foldl
      (fun acc role => sledOpenTree acc (TreeName.bin (name ++ US ++ role))) ts, ?_, ?_, ?_⟩
    · simp [DB.openNamespaceV3, h]
    · intro role hrole
      exact openFold_mem (fun role => TreeName.bin (name ++ US ++ role))
        threeRoles ts role hrole
    · simp only [DB.openNamespaceV3, if_neg h]
      rw [openFold_of_all_mem (fun role => TreeName.bin (name ++ US ++ role))
        threeRoles _ (fun r hr => openFold_mem _ threeRoles ts r hr)]

/-- C7 witness: concrete instantiations of
`spec_c7_open_namespace_drafts`. -/
theorem spec_c7_witness :
    TreeName.plain ("files" ++ US ++ "labels") ∈ Db.openNamespace [] "files" ∧
    DB.openNamespaceV3 [] "ext" =
      Except.error (MangoChainsawError.BadNamespaceName "ext") :=
  ⟨spec_c7_open_namespace_drafts.2.1 [] "files" "labels" (by decide),
   spec_c7_open_namespace_drafts.2.2.1 [] "ext" (by decide)⟩

/-- C8 counterexample: `list_namespaces` does not strip the `<US>role`
suffix from a real five-tree name, and it keeps a name beginning with
`__` that does not begin with `__sled__` — both contradict the claim. -/
theorem spec_c8_list_namespaces_counterexample :
    listNamespaces ["ns\u001Flabels"] ≠ ["ns"] ∧
    listNamespaces ["ns\u001Flabels"] = ["ns\u001Flabels"] ∧
    listNamespaces ["__internal"] = ["__internal"] := by
  decide

/-- C8 (amended): `list_namespaces` returns a sorted, duplicate-free list
obtained by discarding tree names beginning with `__sled__` and stripping
every trailing `_labels` and then every trailing `_blobs` from the rest
(the `<US>role` suffixes are not stripped, and other `__`-prefixed names
are kept). -/
theorem spec_c8_list_namespaces_characterization (trees : List String) :
    (∀ x, x ∈ listNamespaces trees ↔ ∃ t ∈ trees, listNamespacesStep t = some x) ∧
    (listNamespaces trees).Sorted (· ≤ ·) ∧
    (listNamespaces trees).Nodup := by
  refine ⟨?_, ?_, ?_⟩
  · intro x
    simp [listNamespaces, dedupAdj_mem, sortStrings_mem, List.mem_filterMap]
  · exact dedupAdj_sorted _ (sortStrings_sorted _)
  · exact dedupAdj_nodup _ (sortStrings_sorted _)

/-- C9: a fresh query request executes once, marking itself executed; any
further `execute` on an executed request fails with `AlreadyExecuted`, in
both the `old/query.rs` and `src/query.rs` drafts. -/
theorem spec_c9_single_use_guard :
    (∀ (st : NS) (I E P : List Label),
      QueryRequest.execute ⟨I, E, P, false⟩ st =
        Except.ok (queryTx st I E P, ⟨I, E, P, true⟩)) ∧
    (∀ (st : NS) (req : QueryRequest), req.executed = true →
      req.execute st = Except.error QueryError.AlreadyExecuted) ∧
    (∀ (st : NS) (I E : List Label),
      QueryRequestV2.execute ⟨I, E, false⟩ st =
        Except.ok (queryTx st I E [], ⟨[], [], true⟩)) ∧
    (∀ (st : NS) (req : QueryRequestV2), req.executed = true →
      req.execute st = Except.error QueryError.AlreadyExecuted) := by
  refine ⟨?_, ?_, ?_, ?_⟩
  · intro st I E P
    simp [QueryRequest.execute]
  · intro st req h
    simp [QueryRequest.execute, h]
  · intro st I E
    simp [QueryRequestV2.execute]
  · intro st req h
    simp [QueryRequestV2.execute, h]

/-- C9 witness: concrete instantiations of `spec_c9_single_use_guard`. -/
theorem spec_c9_witness :
    QueryRequest.execute ⟨[], [], [], true⟩ emptyNS =
      Except.error QueryError.AlreadyExecuted ∧
    QueryRequestV2.execute ⟨[], [], true⟩ emptyNS =
      Except.error QueryError.AlreadyExecuted :=
  ⟨spec_c9_single_use_guard.2.1 emptyNS ⟨[], [], [], true⟩ rfl,
   spec_c9_single_use_guard.2.2.2 emptyNS ⟨[], [], true⟩ rfl⟩

/-- C10: `InsertRequest::new` derives the ObjectID deterministically as
the hash of the payload bytes, so two requests built from equal payloads
carry the same ObjectID; executing the second insert overwrites the blob
stored under that ID and introduces no fresh identifier into the `data`
tree. -/
theorem spec_c10_content_hash_id_overwrite (st : NS) (b : Blob)
    (L1 L2 : List Label) :
    (InsertRequest.new b).id = hashBytes b ∧
    treeLookup (insertTx (insertTx st (InsertRequest.new b).id b L1)
        (InsertRequest.new b).id b L2).data (InsertRequest.new b).id =
      some (serBlob b) ∧
    ∀ k : ObjectID,
      (treeLookup (insertTx (insertTx st (InsertRequest.new b).id b L1)
          (InsertRequest.new b).id b L2).data k).isSome =
        (treeLookup (insertTx st (InsertRequest.new b).id b L1).data k).isSome := by
  refine ⟨rfl, ?_, ?_⟩
  · rw [insertTx_data]
    exact treeLookup_insert_self _ _ _
  · intro k
    by_cases hk : k = (InsertRequest.new b).id
    · subst hk
      rw [insertTx_data, insertTx_data, treeLookup_insert_self, treeLookup_insert_self]
    · rw [insertTx_data, treeLookup_insert_ne _ _ hk]
